import Mathlib

/-!
Verification development for the student-activity processing pipeline in
`streamlit_app_processing.py` (the `process_student_data` function and its
helpers `_normalize_columns` and `_find_col`).

The shallow embedding below translates the Python source into executable
Lean definitions: pandas tables become `Table` (a column-name list plus a
list of rows of `Value` cells), machine floats become exact rationals,
the filesystem effects of the pipeline (directory creation, spreadsheet
writes) become explicit state passing over `FS`, and Python exceptions
become `Except PyError`.
-/

namespace StudentApp

/-! ## Python string primitives

Executable models of the Python string operations the source uses:
`str.lower`, `str.strip`, `str.split` (whitespace), `str.replace` with
single-character arguments, and `pathlib.Path.suffix`. -/

/-- Python `s.lower()`: lowercase every character (ASCII, as in the data
this app handles). -/
def pyLower (s : String) : String := ⟨s.data.map Char.toLower⟩

/-- Python `s.strip()`: drop leading and trailing whitespace. -/
def pyStrip (s : String) : String :=
  ⟨((s.data.dropWhile Char.isWhitespace).reverse.dropWhile Char.isWhitespace).reverse⟩

/-- Python `"".join(s.split())`: remove every whitespace character, the
normalisation `_find_col` applies in its fallback pass. -/
def stripWS (s : String) : String := ⟨s.data.filter (fun c => !c.isWhitespace)⟩

/-- Python `s.replace(a, b)` for single-character `a`, `b` (the only form
the source uses, in the output-filename sanitisation). -/
def replaceChar (s : String) (a b : Char) : String :=
  ⟨s.data.map (fun c => if c = a then b else c)⟩

/-- Split a character list on a separator character (used for `Path`
component handling and ISO date parsing). -/
def splitOnChar (sep : Char) : List Char → List (List Char)
  | [] => [[]]
  | c :: cs =>
    let r := splitOnChar sep cs
    if c = sep then [] :: r
    else
      match r with
      | [] => [[c]]
      | h :: t => (c :: h) :: t

/-- `pathlib.Path(p).suffix`: the extension of the final path component,
empty unless the last dot sits strictly inside the component's name. -/
def pathSuffix (p : String) : String :=
  let name := (splitOnChar '/' p.data).getLastD []
  let rev := name.reverse
  let after := rev.takeWhile (fun c => decide (c ≠ '.'))
  if after.length = rev.length then ""
  else
    let i := name.length - 1 - after.length
    if 0 < i ∧ i < name.length - 1 then ⟨name.drop i⟩ else ""

/-! ## Cell values -/

/-- A pandas cell: a string, an exact numeric value (floats are modelled by
rationals), a calendar date, or missing data (`NaN`). -/
inductive Value where
  | str (s : String)
  | num (q : ℚ)
  | date (y m d : Nat)
  | missing
deriving DecidableEq

/-- Digits of a natural number, most significant first (helper for exact
string rendering of numbers and dates). -/
def natDigits (n : Nat) : List Char :=
  (Nat.toDigits 10 n)

/-- Render a natural number in decimal. -/
def natStr (n : Nat) : String := ⟨natDigits n⟩

/-- Render an integer in decimal. -/
def intStr (i : Int) : String :=
  if i < 0 then "-" ++ natStr i.natAbs else natStr i.natAbs

/-- Zero-pad a number to two digits (date rendering). -/
def pad2 (n : Nat) : String := if n < 10 then "0" ++ natStr n else natStr n

/-- Zero-pad a number to four digits (year rendering). -/
def pad4 (n : Nat) : String :=
  if n < 10 then "000" ++ natStr n
  else if n < 100 then "00" ++ natStr n
  else if n < 1000 then "0" ++ natStr n
  else natStr n

/-- ISO rendering of a calendar date, as produced by
`pandas .dt.date.astype(str)`. -/
def dateRender (y m d : Nat) : String := pad4 y ++ "-" ++ pad2 m ++ "-" ++ pad2 d

/-- Python `str(v)` on a cell value, as `astype(str)` applies it. -/
def pyStr : Value → String
  | .str s => s
  | .num q => if q.den = 1 then intStr q.num else intStr q.num ++ "/" ++ natStr q.den
  | .date y m d => dateRender y m d
  | .missing => "nan"

/-- Parse the digits of a character list, if all are digits. -/
def digitsToNat (cs : List Char) : Option Nat :=
  if cs.isEmpty then none
  else if cs.all Char.isDigit then
    some (cs.foldl (fun n c => n * 10 + (c.toNat - 48)) 0)
  else none

/-- Parse an optionally signed run of digits as an integer. -/
def strToInt (cs : List Char) : Option Int :=
  match cs with
  | '-' :: rest => (digitsToNat rest).map (fun n => -(n : Int))
  | _ => (digitsToNat cs).map (fun n => (n : Int))

/-- Parse an ISO `YYYY-MM-DD` date string. -/
def parseISO (s : String) : Option (Nat × Nat × Nat) :=
  match (splitOnChar '-' s.data).map digitsToNat with
  | [some y, some m, some d] =>
    if 1 ≤ m ∧ m ≤ 12 ∧ 1 ≤ d ∧ d ≤ 31 then some (y, m, d) else none
  | _ => none

/-- Model of line 74's `pd.to_datetime(col, errors="coerce").dt.date.astype(str)`:
date cells render as `YYYY-MM-DD`, strings parse when in ISO date form, and
every unparseable value becomes the pandas sentinel string `"NaT"`. -/
def dateStr (v : Value) : String :=
  match v with
  | .date y m d => dateRender y m d
  | .str s =>
    match parseISO (pyStrip s) with
    | some (y, m, d) => dateRender y m d
    | none => "NaT"
  | _ => "NaT"

/-- Model of lines 86-88's `pd.to_numeric(col, errors="coerce").fillna(0)`:
numeric cells keep their value, integer-looking strings parse, and every
other value (non-numeric string, date, missing) coerces to 0. -/
def toNumeric0 (v : Value) : ℚ :=
  match v with
  | .num q => q
  | .str s =>
    match strToInt (pyStrip s).data with
    | some n => (n : ℚ)
    | none => 0
  | _ => 0

/-! ## Tables -/

/-- An in-memory pandas DataFrame: ordered column names plus rows of cells,
each row holding its cells in column order. -/
structure Table where
  cols : List String
  rows : List (List Value)
deriving DecidableEq

/-- Cell of a row at a column index; out-of-range reads are missing data. -/
def getCell (row : List Value) (i : Nat) : Value := row.getD i .missing

/-- Replace the cell of a row at a column index. -/
def setCell (row : List Value) (i : Nat) (v : Value) : List Value := row.set i v

/-- `_normalize_columns` (source lines 25-28): strip whitespace from every
column name; cell values are untouched. -/
def normalize_columns (t : Table) : Table :=
  { t with cols := t.cols.map pyStrip }

/-! ## Column resolution (`_find_col`, source lines 31-42) -/

/-- Python dict assignment `m[k] = v`: overwrite the existing entry for `k`
in place, else append a new entry (insertion order is preserved, as for a
Python `dict`). -/
def pyDictInsert (m : List (String × String)) (k v : String) : List (String × String) :=
  if m.any (fun p => p.1 = k) then
    m.map (fun p => if p.1 = k then (k, v) else p)
  else m ++ [(k, v)]

/-- Left-to-right construction of a Python dict from a key/value stream. -/
def lcAux (m : List (String × String)) : List String → List (String × String)
  | [] => m
  | c :: cs => lcAux (pyDictInsert m (pyLower c) c) cs

/-- The dict comprehension at line 32, `{c.lower(): c for c in df.columns}`,
built left to right so that a later column overwrites an earlier one whose
lowercased name coincides. -/
def lcMap (cols : List String) : List (String × String) := lcAux [] cols

/-- `_find_col` (source lines 31-42): first an exact case-insensitive match
against the candidates in candidate order (lookup in `lcMap`); failing
that, a fallback pass over the dict entries comparing with all whitespace
removed; `none` models the `ValueError` raised when both passes fail. -/
def find_col (cols candidates : List String) : Option String :=
  let m := lcMap cols
  match candidates.findSome? (fun cand => m.lookup (pyLower cand)) with
  | some c => some c
  | none =>
    m.findSome? (fun kv =>
      if candidates.any (fun cand => stripWS kv.1 == stripWS (pyLower cand)) then
        some kv.2
      else none)

/-! ## Errors, filesystem, pipeline -/

/-- The `ValueError`s `process_student_data` can raise: the unsupported
file-type error (line 54) and `_find_col`'s error, which carries the
candidates tried and the available columns (lines 40-42). -/
inductive PyError where
  | unsupportedFileType
  | columnNotFound (candidates available : List String)
deriving DecidableEq

/-- The filesystem state the pipeline touches: the set of existing
directories and the spreadsheet files on disk, path by path. -/
structure FS where
  dirs : List String
  files : List (String × Table)
deriving DecidableEq

/-- `os.makedirs(d, exist_ok=True)` (line 46): create the directory if
absent, do nothing if it already exists. -/
def FS.mkdirp (fs : FS) (d : String) : FS :=
  if d ∈ fs.dirs then fs else { fs with dirs := fs.dirs ++ [d] }

/-- `to_excel` (line 97): write a file, overwriting any file at the same
path. -/
def FS.write (fs : FS) (p : String) (t : Table) : FS :=
  if fs.files.any (fun f => f.1 == p) then
    { fs with files := fs.files.map (fun f => if f.1 == p then (p, t) else f) }
  else { fs with files := fs.files ++ [(p, t)] }

/-- `os.path.join(output_dir, filename)` for the paths this app builds. -/
def pathJoin (a b : String) : String := a ++ "/" ++ b

/-- Resolve one required column, turning `_find_col`'s failure into the
`ValueError` carrying the candidates and the available columns. -/
def requireCol (cols candidates : List String) : Except PyError String :=
  match find_col cols candidates with
  | some c => Except.ok c
  | none => Except.error (.columnNotFound candidates cols)

/-- The resolved physical column names for the six required logical
columns (source lines 63-68). -/
structure RCols where
  (cName : String)
  (cLearner : String)
  (cDate : String)
  (cDuration : String)
  (cTitle : String)
  (cActivity : String)
deriving DecidableEq

/-- Lines 63-68: resolve each required column in source order, aborting on
the first failure. -/
def resolveRequired (cols : List String) : Except PyError RCols := do
  let n ← requireCol cols ["Learner - Name"]
  let l ← requireCol cols ["Learner - ID"]
  let d ← requireCol cols ["Completion Date"]
  let du ← requireCol cols ["Learning activity - Duration"]
  let ti ← requireCol cols ["Learning activity - Title"]
  let ai ← requireCol cols ["Learning activity - ID"]
  return ⟨n, l, d, du, ti, ai⟩

/-- Lines 58-61 combined with the truthiness test at line 70: the
Transcript Status column resolves leniently; a `ValueError` leaves
`col_transcript = None`, and Python's `if col_transcript:` is also false
for an empty column name. -/
def resolveTranscript (cols : List String) : Option String :=
  match find_col cols ["Transcript status"] with
  | some c => if c = "" then none else some c
  | none => none

/-- Line 71's normalisation of a transcript-status cell:
`astype(str).str.lower().str.strip()`. -/
def normStatus (v : Value) : String := pyStrip (pyLower (pyStr v))

/-- Lines 71-72: overwrite the transcript column with its normalised
values, then keep only the rows whose normalised status is the literal
string `"completed"`. -/
def filterTranscript (t : Table) (i : Nat) : Table :=
  let mutated := t.rows.map (fun r => setCell r i (.str (normStatus (getCell r i))))
  { t with rows := mutated.filter (fun r => getCell r i == .str "completed") }

/-- Lines 70-72 as a whole: filter when a transcript column was resolved,
otherwise pass the table through unchanged. -/
def filterStage (t : Table) : Table :=
  match resolveTranscript t.cols with
  | some c => filterTranscript t (t.cols.indexOf c)
  | none => t

/-- Line 74: replace the completion-date column by its normalised
date-only string form. -/
def normalizeDates (t : Table) (i : Nat) : Table :=
  { t with rows := t.rows.map (fun r => setCell r i (.str (dateStr (getCell r i)))) }

/-! ## Grouping (line 76) -/

/-- The grouping key of a row: its learner-ID cell and its (already
normalised) completion-date cell. -/
def rowKey (li di : Nat) (r : List Value) : Value × Value :=
  (getCell r li, getCell r di)

/-- Keep one representative per distinct element (the classic
keep-the-last-occurrence dedup; the kept order is irrelevant because the
keys are sorted afterwards). -/
def uniqueKeys {α : Type} [DecidableEq α] : List α → List α
  | [] => []
  | a :: as => if a ∈ as then uniqueKeys as else a :: uniqueKeys as

/-- Total lexicographic comparison on character lists by code point. -/
def charsLeB : List Char → List Char → Bool
  | [], _ => true
  | _ :: _, [] => false
  | a :: as, b :: bs =>
    if a.toNat < b.toNat then true
    else if b.toNat < a.toNat then false
    else charsLeB as bs

/-- A total comparison on cell values (missing < numbers < dates <
strings; within a kind, the natural order), giving pandas' ascending key
order on the homogeneous keys this pipeline produces. -/
def Value.leB : Value → Value → Bool
  | .missing, _ => true
  | _, .missing => false
  | .num a, .num b => decide (a ≤ b)
  | .num _, _ => true
  | _, .num _ => false
  | .date y1 m1 d1, .date y2 m2 d2 =>
    if y1 < y2 then true else if y2 < y1 then false
    else if m1 < m2 then true else if m2 < m1 then false
    else decide (d1 ≤ d2)
  | .date _ _ _, _ => true
  | _, .date _ _ _ => false
  | .str a, .str b => charsLeB a.data b.data

/-- Comparison on group keys, lexicographic in (learner, date). -/
def keyLeB (a b : Value × Value) : Bool :=
  if a.1 = b.1 then Value.leB a.2 b.2 else Value.leB a.1 b.1

/-- Insert into a sorted list (ascending by `le`). -/
def insertSorted {α : Type} (le : α → α → Bool) (a : α) : List α → List α
  | [] => [a]
  | b :: bs => if le a b then a :: b :: bs else b :: insertSorted le a bs

/-- Insertion sort, ascending by `le`. -/
def sortByB {α : Type} (le : α → α → Bool) (l : List α) : List α :=
  l.foldr (insertSorted le) []

/-- The distinct group keys of the table, in the ascending order pandas'
`groupby` iterates them (line 76). `groupby` drops rows whose key
contains missing data (its default `dropna=True`), so keys with a
missing component form no group. -/
def groupKeys (t : Table) (li di : Nat) : List (Value × Value) :=
  sortByB keyLeB
    ((uniqueKeys (t.rows.map (rowKey li di))).filter
      (fun k => !(k.1 == Value.missing || k.2 == Value.missing)))

/-- The rows of one group, in their original relative order. -/
def groupRows (t : Table) (li di : Nat) (k : Value × Value) : List (List Value) :=
  t.rows.filter (fun r => decide (rowKey li di r = k))

/-! ## Report construction and writing (lines 79-98) -/

/-- Line 83-88 for a single row: project onto
`[name, title, learner, activity, duration, date]` and coerce the
duration cell to a number (non-numeric values become 0). -/
def projectRow (ni ti li ai dui di : Nat) (r : List Value) : List Value :=
  [getCell r ni, getCell r ti, getCell r li, getCell r ai,
   .num (toNumeric0 (getCell r dui)), getCell r di]

/-- Line 89: the group's total duration, the sum of its coerced duration
cells. -/
def totalDuration (dui : Nat) (g : List (List Value)) : ℚ :=
  (g.map (fun r => toNumeric0 (getCell r dui))).sum

/-- Lines 83-92: the output table for one qualifying group — the projected
rows in their original order, followed by the synthetic TOTAL row, which
carries the title `"TOTAL"` and the summed duration and leaves every other
cell missing (pandas `concat` alignment over the distinct projected
column names). -/
def makeReport (names : List String) (ni ti li ai dui di : Nat)
    (g : List (List Value)) : Table :=
  { cols := names
    rows := g.map (projectRow ni ti li ai dui di)
      ++ [[.missing, .str "TOTAL", .missing, .missing,
           .num (totalDuration dui g), .missing]] }

/-- Line 94: `str(learner_id).replace(" ", "_")`. -/
def safeLearner (v : Value) : String := replaceChar (pyStr v) ' ' '_'

/-- Line 95: `str(date_str).replace(" ", "_").replace(":", "-")`. -/
def safeDate (v : Value) : String := replaceChar (replaceChar (pyStr v) ' ' '_') ':' '-'

/-- Line 96: the output filename for a group key. -/
def outFilename (learner dateV : Value) : String :=
  "learner_" ++ safeLearner learner ++ "_" ++ safeDate dateV ++ ".xlsx"

/-- Everything the grouping loop needs, as prepared by lines 56-74: the
filtered, date-normalised table, the projection column indices, and the
projected column names. -/
structure Prepared where
  (tab : Table)
  (li : Nat)
  (di : Nat)
  (ni : Nat)
  (ti : Nat)
  (ai : Nat)
  (dui : Nat)
  (trIdx : Option Nat)
  (names : List String)
deriving DecidableEq

/-- Lines 56-74: normalise column names, resolve the columns, filter on
transcript status, normalise the completion dates. -/
def prepare (content : Table) : Except PyError Prepared :=
  match resolveRequired (normalize_columns content).cols with
  | .error e => .error e
  | .ok rc =>
    let df := normalize_columns content
    let df1 := filterStage df
    let di := df1.cols.indexOf rc.cDate
    let df2 := normalizeDates df1 di
    .ok { tab := df2
          li := df2.cols.indexOf rc.cLearner
          di := di
          ni := df2.cols.indexOf rc.cName
          ti := df2.cols.indexOf rc.cTitle
          ai := df2.cols.indexOf rc.cActivity
          dui := df2.cols.indexOf rc.cDuration
          trIdx := (resolveTranscript df.cols).map (fun c => df.cols.indexOf c)
          names := [rc.cName, rc.cTitle, rc.cLearner, rc.cActivity, rc.cDuration, rc.cDate] }

/-- The body of the loop at lines 79-98 for one group key: skip the group
when it has at most 50 rows, otherwise emit the report and its filename. -/
def emitGroup (p : Prepared) (k : Value × Value) : Option (String × Table) :=
  let g := groupRows p.tab p.li p.di k
  if g.length ≤ 50 then none
  else some (outFilename k.1 k.2, makeReport p.names p.ni p.ti p.li p.ai p.dui p.di g)

/-- The loop at lines 79-98: iterate the group keys in order, writing one
file per qualifying group and counting the files written. -/
def processGroups (p : Prepared) (od : String) : List (Value × Value) → FS → FS × Nat
  | [], fs => (fs, 0)
  | k :: ks, fs =>
    match emitGroup p k with
    | none => processGroups p od ks fs
    | some (f, rep) =>
      let rest := processGroups p od ks (fs.write (pathJoin od f) rep)
      (rest.1, rest.2 + 1)

/-- The supported input extensions (lines 49-51), lowercased. -/
def supportedSuffixes : List String := [".xlsx", ".xls", ".csv"]

/-- `process_student_data` (source lines 45-100). The file's parsed
content stands in for the bytes behind `input_file`; reading it succeeds
exactly when the extension is supported. The returned state is the final
filesystem, and the `Except` value is the returned count of files written
or the `ValueError` raised. -/
def process_student_data (input_file : String) (content : Table) (output_dir : String)
    (fs : FS) : FS × Except PyError Nat :=
  let fs1 := fs.mkdirp output_dir
  if pyLower (pathSuffix input_file) ∈ supportedSuffixes then
    match prepare content with
    | .error e => (fs1, .error e)
    | .ok p =>
      let res := processGroups p output_dir (groupKeys p.tab p.li p.di) fs1
      (res.1, .ok res.2)
  else (fs1, .error .unsupportedFileType)

/-! ## Concrete inputs used by witnesses and counterexamples -/

/-- The six required headers, in the column order of the sample inputs. -/
def sixHeaders : List String :=
  ["Learner - Name", "Learner - ID", "Completion Date",
   "Learning activity - Duration", "Learning activity - Title",
   "Learning activity - ID"]

/-- An input with the required headers and zero rows. -/
def tEmpty : Table := { cols := sixHeaders, rows := [] }

/-- One activity row for learner `L1` on `2024-01-05`, duration 2. -/
def rowL1 : List Value :=
  [.str "N", .str "L1", .str "2024-01-05", .num 2, .str "T", .str "A1"]

/-- A table with a single 51-row group (learner `L1`, `2024-01-05`). -/
def t51 : Table := { cols := sixHeaders, rows := List.replicate 51 rowL1 }

/-- A table with a single 50-row group (learner `L1`, `2024-01-05`). -/
def t50 : Table := { cols := sixHeaders, rows := List.replicate 50 rowL1 }

/-- One activity row for learner `a b` on `2024-01-05`. -/
def rowSpace : List Value :=
  [.str "N", .str "a b", .str "2024-01-05", .num 1, .str "T", .str "A1"]

/-- One activity row for learner `a_b` on `2024-01-05`. -/
def rowUnderscore : List Value :=
  [.str "N", .str "a_b", .str "2024-01-05", .num 1, .str "T", .str "A1"]

/-- Two distinct 51-row groups, learners `a b` and `a_b`, on the same
day: their sanitised filenames coincide. -/
def tCollide : Table :=
  { cols := sixHeaders
    rows := List.replicate 51 rowSpace ++ List.replicate 51 rowUnderscore }

/-- The claim's version of the filename sanitisation, following the spec
text: spaces become underscores and colons become hyphens in BOTH the
learner component and the date component. -/
def outFilenameSpec (learner dateS : String) : String :=
  "learner_" ++ replaceChar (replaceChar learner ' ' '_') ':' '-' ++ "_"
    ++ replaceChar (replaceChar dateS ' ' '_') ':' '-' ++ ".xlsx"

/-- The claim's version of `_find_col`'s fallback pass, following the spec
text: the first table column, in table order, whose whitespace-stripped
lowercase form matches some candidate, wins. -/
def findColSpecFallback (cols candidates : List String) : Option String :=
  cols.find? (fun c =>
    candidates.any (fun cand => stripWS (pyLower c) == stripWS (pyLower cand)))

/-- The projected output column names for inputs using the canonical
header spelling. -/
def namesProj : List String :=
  ["Learner - Name", "Learning activity - Title", "Learner - ID",
   "Learning activity - ID", "Learning activity - Duration", "Completion Date"]

/-- The prepared pipeline state for any sample input laid out with the
`sixHeaders` column order (the resolver maps each logical column to the
same-named header, and the sample date strings are already normalised). -/
def prepOf (t : Table) : Prepared :=
  { tab := t, li := 1, di := 2, ni := 0, ti := 4, ai := 5, dui := 3
    trIdx := none, names := namesProj }

/-! ## Helper lemmas about the filesystem model and the writing loop -/

theorem mkdirp_dirs_mem (fs : FS) (d : String) : d ∈ (fs.mkdirp d).dirs := by
  unfold FS.mkdirp
  split
  · assumption
  · exact List.mem_append.mpr (Or.inr (List.mem_singleton.mpr rfl))

theorem mkdirp_of_mem (fs : FS) (d : String) (h : d ∈ fs.dirs) : fs.mkdirp d = fs := by
  unfold FS.mkdirp
  simp [h]

theorem mkdirp_files (fs : FS) (d : String) : (fs.mkdirp d).files = fs.files := by
  unfold FS.mkdirp
  split <;> rfl

theorem write_dirs (fs : FS) (p : String) (t : Table) : (FS.write fs p t).dirs = fs.dirs := by
  unfold FS.write
  split <;> rfl

theorem mem_write {pr : String × Table} {fs : FS} {p : String} {t : Table}
    (h : pr ∈ (FS.write fs p t).files) : pr = (p, t) ∨ pr ∈ fs.files := by
  unfold FS.write at h
  split at h
  · simp only [List.mem_map] at h
    obtain ⟨q, hq, hval⟩ := h
    by_cases hk : q.1 == p
    · rw [if_pos hk] at hval
      exact Or.inl hval.symm
    · rw [if_neg hk] at hval
      exact Or.inr (hval ▸ hq)
  · rcases List.mem_append.mp h with h1 | h1
    · exact Or.inr h1
    · exact Or.inl (List.mem_singleton.mp h1)

theorem emitGroup_eq_none_iff (p : Prepared) (k : Value × Value) :
    emitGroup p k = none ↔ (groupRows p.tab p.li p.di k).length ≤ 50 := by
  unfold emitGroup
  dsimp only
  split
  · next hle => exact iff_of_true rfl hle
  · next hgt => exact iff_of_false (by simp) (by omega)

theorem emitGroup_eq_some {p : Prepared} {k : Value × Value} {f : String} {rep : Table}
    (h : emitGroup p k = some (f, rep)) :
    50 < (groupRows p.tab p.li p.di k).length ∧ f = outFilename k.1 k.2 ∧
      rep = makeReport p.names p.ni p.ti p.li p.ai p.dui p.di (groupRows p.tab p.li p.di k) := by
  unfold emitGroup at h
  dsimp only at h
  split at h
  · exact absurd h (by simp)
  · injection h with h
    injection h with h1 h2
    exact ⟨by omega, h1.symm, h2.symm⟩

theorem processGroups_dirs (p : Prepared) (od : String) (ks : List (Value × Value)) (fs : FS) :
    (processGroups p od ks fs).1.dirs = fs.dirs := by
  induction ks generalizing fs with
  | nil => rfl
  | cons k ks ih =>
    unfold processGroups
    cases he : emitGroup p k with
    | none => exact ih fs
    | some fr =>
      simp only
      rw [ih (fs.write (pathJoin od fr.1) fr.2), write_dirs]

theorem processGroups_count (p : Prepared) (od : String) (ks : List (Value × Value)) (fs : FS) :
    (processGroups p od ks fs).2 =
      ks.countP (fun k => decide (50 < (groupRows p.tab p.li p.di k).length)) := by
  induction ks generalizing fs with
  | nil => rfl
  | cons k ks ih =>
    unfold processGroups
    cases he : emitGroup p k with
    | none =>
      have hle := (emitGroup_eq_none_iff p k).mp he
      simp only [List.countP_cons, ih fs]
      have hd : decide (50 < (groupRows p.tab p.li p.di k).length) = false := by
        simp only [decide_eq_false_iff_not]
        omega
      rw [hd]
      simp
    | some fr =>
      have h50 := (emitGroup_eq_some (show _ = some (fr.1, fr.2) from by rw [he])).1
      simp only [List.countP_cons, ih]
      have hd : decide (50 < (groupRows p.tab p.li p.di k).length) = true := by
        simpa using h50
      rw [hd]
      simp

theorem processGroups_fs_of_small (p : Prepared) (od : String) (ks : List (Value × Value))
    (fs : FS) (h : ∀ k ∈ ks, (groupRows p.tab p.li p.di k).length ≤ 50) :
    (processGroups p od ks fs).1 = fs := by
  induction ks generalizing fs with
  | nil => rfl
  | cons k ks ih =>
    unfold processGroups
    cases he : emitGroup p k with
    | none => exact ih fs (fun k' hk' => h k' (List.mem_cons_of_mem _ hk'))
    | some fr =>
      exfalso
      have h50 := (emitGroup_eq_some (show _ = some (fr.1, fr.2) from by rw [he])).1
      have := h k (List.mem_cons_self _ _)
      omega

theorem process_ok_cases (inp : String) (content : Table) (od : String) (fs : FS) (n : Nat)
    (h : (process_student_data inp content od fs).2 = Except.ok n) :
    ∃ p, prepare content = Except.ok p ∧
      process_student_data inp content od fs =
        ((processGroups p od (groupKeys p.tab p.li p.di) (fs.mkdirp od)).1,
         Except.ok ((processGroups p od (groupKeys p.tab p.li p.di) (fs.mkdirp od)).2)) ∧
      n = (processGroups p od (groupKeys p.tab p.li p.di) (fs.mkdirp od)).2 := by
  unfold process_student_data at h ⊢
  dsimp only at h ⊢
  by_cases hc : pyLower (pathSuffix inp) ∈ supportedSuffixes
  · rw [if_pos hc] at h ⊢
    cases hp : prepare content with
    | error e =>
      rw [hp] at h
      exact absurd h (fun hh => Except.noConfusion hh)
    | ok p =>
      rw [hp] at h
      exact ⟨p, rfl, rfl, (Except.ok.inj h).symm⟩
  · rw [if_neg hc] at h
    exact absurd h (fun hh => Except.noConfusion hh)

theorem process_creates_dir (inp : String) (content : Table) (od : String) (fs : FS) :
    od ∈ (process_student_data inp content od fs).1.dirs := by
  unfold process_student_data
  dsimp only
  by_cases hc : pyLower (pathSuffix inp) ∈ supportedSuffixes
  · rw [if_pos hc]
    cases hp : prepare content with
    | error e => exact mkdirp_dirs_mem fs od
    | ok p =>
      dsimp only
      rw [processGroups_dirs]
      exact mkdirp_dirs_mem fs od
  · rw [if_neg hc]
    exact mkdirp_dirs_mem fs od

theorem process_dirs_stable (inp : String) (content : Table) (od : String) (fs : FS)
    (h : od ∈ fs.dirs) :
    (process_student_data inp content od fs).1.dirs = fs.dirs := by
  unfold process_student_data
  dsimp only
  rw [mkdirp_of_mem fs od h]
  by_cases hc : pyLower (pathSuffix inp) ∈ supportedSuffixes
  · rw [if_pos hc]
    cases hp : prepare content with
    | error e => rfl
    | ok p => exact processGroups_dirs ..
  · rw [if_neg hc]

/-- C1: for every input file and output directory, a successful
`process_student_data(input_file, output_dir)` run creates the output
directory if absent (idempotently: an existing directory set is left
unchanged) and returns the count of qualifying groups actually written;
when the input has no rows, or every group has at most 50 rows, it
returns 0 and leaves the filesystem's files exactly as they were (so a
fresh output directory exists but is empty). -/
theorem c1_orchestrator_contract (inp : String) (content : Table) (od : String) (fs : FS)
    (n : Nat) (h : (process_student_data inp content od fs).2 = Except.ok n) :
    od ∈ (process_student_data inp content od fs).1.dirs ∧
    (od ∈ fs.dirs → (process_student_data inp content od fs).1.dirs = fs.dirs) ∧
    ∃ p, prepare content = Except.ok p ∧
      n = (groupKeys p.tab p.li p.di).countP
            (fun k => decide (50 < (groupRows p.tab p.li p.di k).length)) ∧
      ((∀ k ∈ groupKeys p.tab p.li p.di, (groupRows p.tab p.li p.di k).length ≤ 50) →
        n = 0 ∧ (process_student_data inp content od fs).1.files = fs.files) := by
  obtain ⟨p, hp, heq, hn⟩ := process_ok_cases inp content od fs n h
  refine ⟨process_creates_dir .., process_dirs_stable inp content od fs, p, hp, ?_, ?_⟩
  · rw [hn, processGroups_count]
  · intro hall
    constructor
    · rw [hn, processGroups_count]
      exact List.countP_eq_zero.mpr (fun k hk => by
        simp only [decide_eq_true_eq]
        have := hall k hk
        omega)
    · rw [heq]
      dsimp only
      rw [processGroups_fs_of_small p od _ _ hall, mkdirp_files]

theorem c1_witness :
    "out" ∈ (process_student_data "d.csv" tEmpty "out" ⟨[], []⟩).1.dirs :=
  (c1_orchestrator_contract "d.csv" tEmpty "out" ⟨[], []⟩ 0 rfl).1

/-- C2: a group of the filtered, grouped table produces an output file
iff its row count strictly exceeds 50; a 50-row group produces nothing,
and a 51-row group produces exactly the one file named after its key. -/
theorem c2_threshold (p : Prepared) (k : Value × Value)
    (_hk : k ∈ groupKeys p.tab p.li p.di) :
    ((emitGroup p k).isSome ↔ 50 < (groupRows p.tab p.li p.di k).length) ∧
    ((groupRows p.tab p.li p.di k).length = 50 → emitGroup p k = none) ∧
    ((groupRows p.tab p.li p.di k).length = 51 →
      emitGroup p k = some (outFilename k.1 k.2,
        makeReport p.names p.ni p.ti p.li p.ai p.dui p.di (groupRows p.tab p.li p.di k))) := by
  refine ⟨?_, ?_, ?_⟩
  · constructor
    · intro hs
      cases he : emitGroup p k with
      | none => rw [he] at hs; exact absurd hs (by simp)
      | some fr => exact (emitGroup_eq_some (show _ = some (fr.1, fr.2) from by rw [he])).1
    · intro hgt
      cases he : emitGroup p k with
      | none =>
        have := (emitGroup_eq_none_iff p k).mp he
        omega
      | some fr => simp
  · intro h50
    exact (emitGroup_eq_none_iff p k).mpr (by omega)
  · intro h51
    unfold emitGroup
    dsimp only
    rw [if_neg (by omega)]

theorem c2_witness :
    emitGroup (prepOf t51) (Value.str "L1", Value.str "2024-01-05") =
      some (outFilename (Value.str "L1") (Value.str "2024-01-05"),
        makeReport (prepOf t51).names (prepOf t51).ni (prepOf t51).ti (prepOf t51).li
          (prepOf t51).ai (prepOf t51).dui (prepOf t51).di
          (groupRows (prepOf t51).tab (prepOf t51).li (prepOf t51).di
            (Value.str "L1", Value.str "2024-01-05"))) :=
  (c2_threshold (prepOf t51) (Value.str "L1", Value.str "2024-01-05") (by decide)).2.2 (by decide)

/-- C3 (code bug): on a valid input with a single qualifying 51-row
group, the output file's columns are the SIX columns
[Name, Title, Learner ID, Activity ID, Duration, Completion Date] —
the code projects `col_name` first (line 83-85), contradicting both the
claim and the module docstring, which promise exactly the five columns
[Title, Learner ID, Activity ID, Duration, Completion Date]. -/
theorem c3_name_column_in_output :
    (process_student_data "d.csv" t51 "out" ⟨[], []⟩).1.files.map (fun f => f.2.cols) =
      [["Learner - Name", "Learning activity - Title", "Learner - ID",
        "Learning activity - ID", "Learning activity - Duration", "Completion Date"]] ∧
    "Learner - Name" ∉ ["Learning activity - Title", "Learner - ID",
        "Learning activity - ID", "Learning activity - Duration", "Completion Date"] := by
  exact ⟨rfl, by decide⟩

/-- C4: in every emitted report, the sum of the Duration values over the
non-TOTAL rows (each coerced to a number, non-numeric treated as 0)
equals the TOTAL row's Duration value — exactly, in the exact-rational
model of the float arithmetic. -/
theorem c4_total_row_sum (p : Prepared) (k : Value × Value) (f : String) (rep : Table)
    (h : emitGroup p k = some (f, rep)) :
    ((rep.rows.dropLast).map (fun r => toNumeric0 (getCell r 4))).sum
      = toNumeric0 (getCell (rep.rows.getLastD []) 4) := by
  obtain ⟨-, -, hrep⟩ := emitGroup_eq_some h
  subst hrep
  unfold makeReport
  dsimp only
  rw [List.dropLast_concat, List.getLastD_concat]
  rw [List.map_map]
  have hcell : ∀ r : List Value,
      toNumeric0 (getCell (projectRow p.ni p.ti p.li p.ai p.dui p.di r) 4)
        = toNumeric0 (getCell r p.dui) := by
    intro r
    rfl
  have hmap : (groupRows p.tab p.li p.di k).map
        ((fun r => toNumeric0 (getCell r 4)) ∘ projectRow p.ni p.ti p.li p.ai p.dui p.di)
      = (groupRows p.tab p.li p.di k).map (fun r => toNumeric0 (getCell r p.dui)) :=
    List.map_congr_left (fun r _ => hcell r)
  rw [hmap]
  rfl

theorem c4_witness :
    ((((emitGroup (prepOf t51) (Value.str "L1", Value.str "2024-01-05")).getD
        ("", ⟨[], []⟩)).2.rows.dropLast).map (fun r => toNumeric0 (getCell r 4))).sum
      = toNumeric0 (getCell
          (((emitGroup (prepOf t51) (Value.str "L1", Value.str "2024-01-05")).getD
            ("", ⟨[], []⟩)).2.rows.getLastD []) 4) :=
  c4_total_row_sum (prepOf t51) (Value.str "L1", Value.str "2024-01-05") _ _ rfl

/-- C7 counterexample: for the `.txt` input the run does raise the
unsupported-format error, but only AFTER creating the output directory:
starting from an empty filesystem (where `out` does not exist), the
final state contains the directory `out`. The claim's "before touching
the output directory" is therefore false. -/
theorem c7_counterexample :
    (process_student_data "data.txt" tEmpty "out" ⟨[], []⟩).2 =
      Except.error PyError.unsupportedFileType ∧
    "out" ∈ (process_student_data "data.txt" tEmpty "out" ⟨[], []⟩).1.dirs ∧
    "out" ∉ (FS.mk [] []).dirs := by
  exact ⟨rfl, by decide, by decide⟩

/-- C7 amended: for every input path whose lowercased extension is not
`.xlsx`, `.xls` or `.csv`, `process_student_data` raises the
unsupported-format `ValueError` before producing any output: the output
directory is created first (so it exists afterwards), but the file set
is left exactly as it was. -/
theorem c7_amended_unsupported (inp : String) (content : Table) (od : String) (fs : FS)
    (h : pyLower (pathSuffix inp) ∉ supportedSuffixes) :
    process_student_data inp content od fs =
      (fs.mkdirp od, Except.error PyError.unsupportedFileType) ∧
    (process_student_data inp content od fs).1.files = fs.files ∧
    od ∈ (process_student_data inp content od fs).1.dirs := by
  have heq : process_student_data inp content od fs =
      (fs.mkdirp od, Except.error PyError.unsupportedFileType) := by
    unfold process_student_data
    dsimp only
    rw [if_neg h]
  refine ⟨heq, ?_, ?_⟩
  · rw [heq]
    exact mkdirp_files fs od
  · rw [heq]
    exact mkdirp_dirs_mem fs od

theorem c7_witness :
    process_student_data "data.txt" tEmpty "out" ⟨[], []⟩ =
      ((FS.mk [] []).mkdirp "out", Except.error PyError.unsupportedFileType) :=
  (c7_amended_unsupported "data.txt" tEmpty "out" ⟨[], []⟩ (by decide)).1

/-- C8 counterexample: the code replaces colons only in the date
component (line 95), not in the learner component (line 94): a learner
ID containing a colon keeps it in the filename, where the claim's
sanitisation (colon → hyphen in both components) would replace it. -/
theorem c8_counterexample :
    outFilename (Value.str "a:b") (Value.str "2024-01-05") = "learner_a:b_2024-01-05.xlsx" ∧
    outFilenameSpec "a:b" "2024-01-05" = "learner_a-b_2024-01-05.xlsx" ∧
    outFilename (Value.str "a:b") (Value.str "2024-01-05") ≠ outFilenameSpec "a:b" "2024-01-05" := by
  exact ⟨rfl, rfl, by decide⟩

/-- C8 amended: every output file is named
`learner_<LearnerID>_<DateString>.xlsx` where spaces are replaced by
underscores in BOTH components, but colons are replaced by hyphens in
the DATE component only; consequently the sanitised learner component
never contains a space and the sanitised date component never contains
a space or a colon, while a colon in the learner ID survives. -/
theorem c8_amended (l d : Value) :
    outFilename l d =
      "learner_" ++ replaceChar (pyStr l) ' ' '_' ++ "_"
        ++ replaceChar (replaceChar (pyStr d) ' ' '_') ':' '-' ++ ".xlsx" ∧
    ((safeLearner l).data.all (fun c => decide (c ≠ ' '))) = true ∧
    ((safeDate d).data.all (fun c => decide (c ≠ ' ' ∧ c ≠ ':'))) = true ∧
    safeLearner (Value.str "a:b") = "a:b" := by
  refine ⟨rfl, ?_, ?_, by decide⟩
  · unfold safeLearner replaceChar
    dsimp only
    rw [List.all_map]
    rw [List.all_eq_true]
    intro c _
    by_cases hc : c = ' ' <;> simp [hc]
  · unfold safeDate replaceChar
    dsimp only
    rw [List.all_map, List.all_map]
    rw [List.all_eq_true]
    intro c _
    by_cases hc : c = ' '
    · simp [hc]
    · by_cases hc2 : c = ':' <;> simp [hc, hc2]

/-! ## Cell access and the transcript filter -/

theorem getCell_set_self {r : List Value} {i : Nat} (h : i < r.length) (v : Value) :
    getCell (setCell r i v) i = v := by
  unfold getCell setCell
  rw [List.getD_eq_getElem?_getD, List.getElem?_set_self h]
  rfl

theorem getCell_set_ne {r : List Value} {i j : Nat} (h : i ≠ j) (v : Value) :
    getCell (setCell r i v) j = getCell r j := by
  unfold getCell setCell
  rw [List.getD_eq_getElem?_getD, List.getElem?_set_ne h, ← List.getD_eq_getElem?_getD]

theorem getCell_of_length_le {r : List Value} {i : Nat} (h : r.length ≤ i) :
    getCell r i = Value.missing :=
  List.getD_eq_default _ _ h

theorem map_filter_eq_filterMap {α : Type} (f : α → α) (p : α → Bool) (l : List α) :
    (l.map f).filter p = l.filterMap (fun a => if p (f a) then some (f a) else none) := by
  induction l with
  | nil => rfl
  | cons a l ih =>
    simp only [List.map_cons, List.filter_cons, List.filterMap_cons]
    cases hpa : p (f a) <;> simp [hpa, ih]

theorem filterTranscript_row_case (i : Nat) (r : List Value) :
    (if (getCell (setCell r i (.str (normStatus (getCell r i)))) i == Value.str "completed")
     then some (setCell r i (.str (normStatus (getCell r i)))) else none)
    = (if normStatus (getCell r i) = "completed"
       then some (setCell r i (.str (normStatus (getCell r i)))) else none) := by
  by_cases hi : i < r.length
  · rw [getCell_set_self hi]
    by_cases hc : normStatus (getCell r i) = "completed"
    · rw [if_pos hc, if_pos (by simp [hc])]
    · rw [if_neg hc, if_neg (by simp [hc])]
  · have hlen : r.length ≤ i := by omega
    have hset : setCell r i (.str (normStatus (getCell r i))) = r :=
      List.set_eq_of_length_le hlen
    rw [hset, getCell_of_length_le hlen]
    rw [if_neg (by decide), if_neg (by decide)]

/-- C6: when a Transcript Status column is resolved, the filter stage
keeps exactly the rows whose status value, stringified, lowercased and
trimmed, equals the literal `"completed"` (those rows keep their other
cells, with the status cell replaced by its normalised form); every
other row is dropped before grouping, so it can appear in no output.
When no Transcript Status column resolves, the table passes through the
filter unchanged. The final conjunct ties the stage to the pipeline:
every prepared table is the date-normalised image of the filter stage's
output. -/
theorem c6_transcript_filter (t : Table) :
    (resolveTranscript t.cols = none → filterStage t = t) ∧
    (∀ c, resolveTranscript t.cols = some c →
      (filterStage t).cols = t.cols ∧
      (filterStage t).rows = t.rows.filterMap (fun r =>
        if normStatus (getCell r (t.cols.indexOf c)) = "completed" then
          some (setCell r (t.cols.indexOf c)
            (.str (normStatus (getCell r (t.cols.indexOf c)))))
        else none)) ∧
    (∀ content p, prepare content = Except.ok p →
      p.tab = normalizeDates (filterStage (normalize_columns content)) p.di) := by
  refine ⟨?_, ?_, ?_⟩
  · intro h
    unfold filterStage
    rw [h]
  · intro c h
    unfold filterStage
    rw [h]
    unfold filterTranscript
    refine ⟨rfl, ?_⟩
    dsimp only
    rw [map_filter_eq_filterMap]
    exact List.filterMap_congr (fun r _ => filterTranscript_row_case (t.cols.indexOf c) r)
  · intro content p hp
    unfold prepare at hp
    cases hrc : resolveRequired (normalize_columns content).cols with
    | error e =>
      rw [hrc] at hp
      exact absurd hp (fun hh => Except.noConfusion hh)
    | ok rc =>
      rw [hrc] at hp
      have := Except.ok.inj hp
      rw [← this]

theorem c6_witness :
    filterStage tEmpty = tEmpty :=
  (c6_transcript_filter tEmpty).1 (by decide)

/-! ## Filenames and file/key correspondence -/

theorem mid3_inj (pre suf a1 b1 c1 a2 b2 c2 : List Char)
    (h : pre ++ (a1 ++ (b1 ++ (c1 ++ suf))) = pre ++ (a2 ++ (b2 ++ (c2 ++ suf)))) :
    a1 ++ (b1 ++ c1) = a2 ++ (b2 ++ c2) := by
  have h1 := List.append_cancel_left h
  have h2 : (a1 ++ (b1 ++ c1)) ++ suf = (a2 ++ (b2 ++ c2)) ++ suf := by
    simpa [List.append_assoc] using h1
  exact List.append_cancel_right h2

theorem mid3_of_eq (pre suf a1 b1 c1 a2 b2 c2 : List Char)
    (h : a1 ++ (b1 ++ c1) = a2 ++ (b2 ++ c2)) :
    pre ++ (a1 ++ (b1 ++ (c1 ++ suf))) = pre ++ (a2 ++ (b2 ++ (c2 ++ suf))) := by
  have h2 : (a1 ++ (b1 ++ c1)) ++ suf = (a2 ++ (b2 ++ c2)) ++ suf := by rw [h]
  have h3 := congrArg (fun l => pre ++ l) h2
  simpa [List.append_assoc] using h3

theorem processGroups_files_mem (p : Prepared) (od : String) (ks : List (Value × Value))
    (fs : FS) (pr : String × Table) (h : pr ∈ (processGroups p od ks fs).1.files) :
    pr ∈ fs.files ∨ ∃ k ∈ ks, 50 < (groupRows p.tab p.li p.di k).length ∧
      pr.1 = pathJoin od (outFilename k.1 k.2) := by
  induction ks generalizing fs with
  | nil => exact Or.inl h
  | cons k ks ih =>
    rw [processGroups] at h
    cases he : emitGroup p k with
    | none =>
      rw [he] at h
      rcases ih fs h with h1 | ⟨k', hk', hlen, hname⟩
      · exact Or.inl h1
      · exact Or.inr ⟨k', List.mem_cons_of_mem _ hk', hlen, hname⟩
    | some fr =>
      rw [he] at h
      dsimp only at h
      obtain ⟨hlen, hf, -⟩ := emitGroup_eq_some (show _ = some (fr.1, fr.2) from by rw [he])
      rcases ih (fs.write (pathJoin od fr.1) fr.2) h with h1 | ⟨k', hk', hlen', hname⟩
      · rcases mem_write h1 with h2 | h2
        · refine Or.inr ⟨k, List.mem_cons_self .., hlen, ?_⟩
          rw [h2, hf]
        · exact Or.inl h2
      · exact Or.inr ⟨k', List.mem_cons_of_mem _ hk', hlen', hname⟩

/-- C9 counterexample: the distinct qualifying group keys
`("a b", 2024-01-05)` and `("a_b", 2024-01-05)` sanitise to the same
filename, so the run reports 2 files written but leaves exactly one
file on disk — an output file corresponding to two distinct group
keys, falsifying the claimed one-to-one key/file correspondence. -/
theorem c9_counterexample :
    (process_student_data "d.csv" tCollide "out" ⟨[], []⟩).2 = Except.ok 2 ∧
    (process_student_data "d.csv" tCollide "out" ⟨[], []⟩).1.files.length = 1 ∧
    prepare tCollide = Except.ok (prepOf tCollide) ∧
    groupKeys (prepOf tCollide).tab (prepOf tCollide).li (prepOf tCollide).di =
      [(Value.str "a b", Value.str "2024-01-05"),
       (Value.str "a_b", Value.str "2024-01-05")] ∧
    ((Value.str "a b", Value.str "2024-01-05") : Value × Value) ≠
      (Value.str "a_b", Value.str "2024-01-05") ∧
    50 < (groupRows (prepOf tCollide).tab 1 2
      (Value.str "a b", Value.str "2024-01-05")).length ∧
    50 < (groupRows (prepOf tCollide).tab 1 2
      (Value.str "a_b", Value.str "2024-01-05")).length ∧
    outFilename (Value.str "a b") (Value.str "2024-01-05")
      = outFilename (Value.str "a_b") (Value.str "2024-01-05") := by
  refine ⟨rfl, rfl, rfl, rfl, by decide, ?_, ?_, rfl⟩
  · show 50 < 51
    omega
  · show 50 < 51
    omega

/-- C9 amended: two group keys map to the same output file exactly when
their sanitised components concatenate to the same string (e.g. learner
`a b` vs `a_b` on the same date); keys whose sanitised learner and date
parts differ give distinct files, and every file present after the
writing loop either predates the loop or is named for some qualifying
group key of the run. -/
theorem c9_amended :
    (∀ l1 d1 l2 d2 : Value,
      outFilename l1 d1 = outFilename l2 d2 ↔
        safeLearner l1 ++ "_" ++ safeDate d1 = safeLearner l2 ++ "_" ++ safeDate d2) ∧
    (∀ (p : Prepared) (od : String) (ks : List (Value × Value)) (fs : FS)
      (pr : String × Table), pr ∈ (processGroups p od ks fs).1.files →
      pr ∈ fs.files ∨ ∃ k ∈ ks, 50 < (groupRows p.tab p.li p.di k).length ∧
        pr.1 = pathJoin od (outFilename k.1 k.2)) := by
  constructor
  · intro l1 d1 l2 d2
    constructor
    · intro h
      have hd := congrArg String.data h
      simp only [outFilename, String.data_append, List.append_assoc] at hd
      apply String.ext
      simp only [String.data_append, List.append_assoc]
      exact mid3_inj _ _ _ _ _ _ _ _ hd
    · intro h
      have hd := congrArg String.data h
      simp only [String.data_append, List.append_assoc] at hd
      apply String.ext
      simp only [outFilename, String.data_append, List.append_assoc]
      exact mid3_of_eq _ _ _ _ _ _ _ _ hd
  · exact processGroups_files_mem

theorem c9_amended_witness :
    outFilename (Value.str "a b") (Value.str "2024-01-05")
      = outFilename (Value.str "a_b") (Value.str "2024-01-05") :=
  (c9_amended.1 (Value.str "a b") (Value.str "2024-01-05")
    (Value.str "a_b") (Value.str "2024-01-05")).mpr rfl

/-! ## Column-resolution lemmas -/

theorem pyDictInsert_mem {m : List (String × String)} {k v : String}
    {kv : String × String} (h : kv ∈ pyDictInsert m k v) : kv ∈ m ∨ kv = (k, v) := by
  unfold pyDictInsert at h
  split at h
  · simp only [List.mem_map] at h
    obtain ⟨q, hq, hval⟩ := h
    by_cases hk : q.1 = k
    · rw [if_pos hk] at hval
      exact Or.inr hval.symm
    · rw [if_neg hk] at hval
      exact Or.inl (hval ▸ hq)
  · rcases List.mem_append.mp h with h1 | h1
    · exact Or.inl h1
    · exact Or.inr (List.mem_singleton.mp h1)

theorem pyDictInsert_hasKey {m : List (String × String)} {k v k2 : String} :
    (∃ w, (k2, w) ∈ pyDictInsert m k v) ↔ (∃ w, (k2, w) ∈ m) ∨ k2 = k := by
  constructor
  · rintro ⟨w, hw⟩
    rcases pyDictInsert_mem hw with h1 | h1
    · exact Or.inl ⟨w, h1⟩
    · exact Or.inr (congrArg Prod.fst h1)
  · rintro (⟨w, hw⟩ | hk)
    · unfold pyDictInsert
      split
      · by_cases hk2 : k2 = k
        · next hany =>
          obtain ⟨q, hq, hq1⟩ := List.any_eq_true.mp hany
          refine ⟨v, List.mem_map.mpr ⟨q, hq, ?_⟩⟩
          rw [hk2]
          rw [if_pos (of_decide_eq_true hq1)]
        · refine ⟨w, List.mem_map.mpr ⟨(k2, w), hw, ?_⟩⟩
          rw [if_neg hk2]
      · exact ⟨w, List.mem_append.mpr (Or.inl hw)⟩
    · unfold pyDictInsert
      split
      · next hany =>
        obtain ⟨q, hq, hq1⟩ := List.any_eq_true.mp hany
        refine ⟨v, List.mem_map.mpr ⟨q, hq, ?_⟩⟩
        rw [if_pos (of_decide_eq_true hq1), hk]
      · refine ⟨v, List.mem_append.mpr (Or.inr (List.mem_singleton.mpr ?_))⟩
        rw [hk]

theorem lcAux_mem : ∀ (cols : List String) (m : List (String × String))
    (kv : String × String), kv ∈ lcAux m cols →
    kv ∈ m ∨ (kv.2 ∈ cols ∧ kv.1 = pyLower kv.2)
  | [], m, kv, h => Or.inl h
  | c :: cs, m, kv, h => by
    rcases lcAux_mem cs (pyDictInsert m (pyLower c) c) kv h with h1 | ⟨h1, h2⟩
    · rcases pyDictInsert_mem h1 with h2 | h2
      · exact Or.inl h2
      · refine Or.inr ⟨?_, ?_⟩
        · rw [h2]
          exact List.mem_cons_self ..
        · rw [h2]
    · exact Or.inr ⟨List.mem_cons_of_mem _ h1, h2⟩

theorem lcAux_hasKey : ∀ (cols : List String) (m : List (String × String)) (k : String),
    (∃ w, (k, w) ∈ lcAux m cols) ↔ (∃ w, (k, w) ∈ m) ∨ k ∈ cols.map pyLower
  | [], m, k => by simp [lcAux]
  | c :: cs, m, k => by
    rw [lcAux, lcAux_hasKey cs (pyDictInsert m (pyLower c) c) k, pyDictInsert_hasKey]
    simp only [List.map_cons, List.mem_cons]
    tauto

theorem lookup_eq_none_iff (m : List (String × String)) (k : String) :
    m.lookup k = none ↔ ∀ w, (k, w) ∉ m := by
  induction m with
  | nil => simp
  | cons p m ih =>
    obtain ⟨a, b⟩ := p
    rw [List.lookup_cons]
    by_cases hk : k = a
    · subst hk
      simp only [beq_self_eq_true]
      constructor
      · intro h
        exact absurd h (fun hh => Option.noConfusion hh)
      · intro h
        exact absurd (List.mem_cons_self ..) (h b)
    · have : (k == a) = false := beq_eq_false_iff_ne.mpr hk
      rw [this]
      rw [ih]
      constructor
      · intro h w hw
        rcases List.mem_cons.mp hw with h1 | h1
        · exact hk (congrArg Prod.fst h1)
        · exact h w h1
      · intro h w hw
        exact h w (List.mem_cons_of_mem _ hw)

theorem lookup_mem {m : List (String × String)} {k v : String}
    (h : m.lookup k = some v) : (k, v) ∈ m := by
  induction m with
  | nil => exact absurd h (fun hh => Option.noConfusion hh)
  | cons p m ih =>
    obtain ⟨a, b⟩ := p
    rw [List.lookup_cons] at h
    by_cases hk : k = a
    · subst hk
      simp only [beq_self_eq_true] at h
      injection h with h
      subst h
      exact List.mem_cons_self ..
    · have : (k == a) = false := beq_eq_false_iff_ne.mpr hk
      rw [this] at h
      exact List.mem_cons_of_mem _ (ih h)

theorem lookup_isSome_iff (m : List (String × String)) (k : String) :
    (m.lookup k).isSome = true ↔ ∃ w, (k, w) ∈ m := by
  cases hl : m.lookup k with
  | none =>
    constructor
    · intro h
      exact absurd h Bool.false_ne_true
    · rintro ⟨w, hw⟩
      exact absurd hw ((lookup_eq_none_iff m k).mp hl w)
  | some v =>
    constructor
    · intro _
      exact ⟨v, lookup_mem hl⟩
    · intro _
      rfl

theorem exactPhase_none_iff (cols cands : List String) :
    cands.findSome? (fun cand => (lcMap cols).lookup (pyLower cand)) = none ↔
      ∀ cand ∈ cands, ∀ col ∈ cols, pyLower col ≠ pyLower cand := by
  rw [List.findSome?_eq_none_iff]
  constructor
  · intro h cand hcand col hcol heq
    have hnone := h cand hcand
    have hk : pyLower cand ∈ cols.map pyLower :=
      heq ▸ List.mem_map_of_mem _ hcol
    have hex : ∃ w, (pyLower cand, w) ∈ lcMap cols :=
      (lcAux_hasKey cols [] (pyLower cand)).mpr (Or.inr hk)
    obtain ⟨w, hw⟩ := hex
    exact (lookup_eq_none_iff _ _).mp hnone w hw
  · intro h cand hcand
    rw [lookup_eq_none_iff]
    intro w hw
    rcases lcAux_mem cols [] (pyLower cand, w) hw with h1 | ⟨h1, h2⟩
    · exact absurd h1 (List.not_mem_nil _)
    · exact h cand hcand w h1 h2.symm

theorem fallbackPhase_none_iff (cols cands : List String) :
    ((lcMap cols).findSome? (fun kv =>
        if cands.any (fun cand => stripWS kv.1 == stripWS (pyLower cand)) then some kv.2
        else none) = none) ↔
      ∀ cand ∈ cands, ∀ col ∈ cols, stripWS (pyLower col) ≠ stripWS (pyLower cand) := by
  rw [List.findSome?_eq_none_iff]
  constructor
  · intro h cand hcand col hcol heq
    have hex : ∃ w, (pyLower col, w) ∈ lcMap cols :=
      (lcAux_hasKey cols [] (pyLower col)).mpr (Or.inr (List.mem_map_of_mem _ hcol))
    obtain ⟨w, hw⟩ := hex
    have hnone := h _ hw
    have hany : cands.any
        (fun c2 => stripWS (pyLower col) == stripWS (pyLower c2)) = true :=
      List.any_eq_true.mpr ⟨cand, hcand, by rw [heq]; exact beq_self_eq_true _⟩
    rw [if_pos hany] at hnone
    exact Option.noConfusion hnone
  · intro h kv hkv
    rcases lcAux_mem cols [] kv hkv with h1 | ⟨h1, h2⟩
    · exact absurd h1 (List.not_mem_nil _)
    · have hany : cands.any
          (fun cand => stripWS kv.1 == stripWS (pyLower cand)) = false := by
        rw [List.any_eq_false]
        intro cand hcand hbeq
        have heq : stripWS kv.1 = stripWS (pyLower cand) := beq_iff_eq.mp hbeq
        rw [h2] at heq
        exact h cand hcand kv.2 h1 heq
      rw [if_neg (by rw [hany]; exact Bool.false_ne_true)]

theorem find?_findSome?_align {α β : Type} (l : List α) (f : α → Option β) (p : α → Bool)
    (hfp : ∀ x, ((f x).isSome = true ↔ p x = true)) :
    ∀ a, l.find? p = some a → ∃ b, l.findSome? f = some b ∧ f a = some b := by
  induction l with
  | nil =>
    intro a h
    exact absurd h (fun hh => Option.noConfusion hh)
  | cons hd tl ih =>
    intro a h
    cases hph : p hd with
    | true =>
      rw [List.find?_cons_of_pos _ hph] at h
      injection h with h
      obtain ⟨b, hfb⟩ := Option.isSome_iff_exists.mp ((hfp hd).mpr hph)
      refine ⟨b, ?_, by rw [← h]; exact hfb⟩
      rw [List.findSome?_cons, hfb]
    | false =>
      rw [List.find?_cons_of_neg _ (by rw [hph]; exact Bool.false_ne_true)] at h
      have hfn : f hd = none := by
        cases hf : f hd with
        | none => rfl
        | some b =>
          have : p hd = true := (hfp hd).mp (by rw [hf]; rfl)
          rw [hph] at this
          exact absurd this Bool.false_ne_true
      obtain ⟨b, hb, hfb⟩ := ih a h
      refine ⟨b, ?_, hfb⟩
      rw [List.findSome?_cons, hfn]
      exact hb

theorem pyDictInsert_not_hasKey {m : List (String × String)} {k v : String}
    (h : ∀ w, (k, w) ∉ m) : pyDictInsert m k v = m ++ [(k, v)] := by
  unfold pyDictInsert
  rw [if_neg]
  intro hany
  obtain ⟨q, hq, hq1⟩ := List.any_eq_true.mp hany
  obtain ⟨a, b⟩ := q
  have ha : a = k := of_decide_eq_true hq1
  subst ha
  exact h b hq

theorem lcAux_of_nodup : ∀ (cols : List String) (m : List (String × String)),
    (cols.map pyLower).Nodup → (∀ c ∈ cols, ∀ w, (pyLower c, w) ∉ m) →
    lcAux m cols = m ++ cols.map (fun c => (pyLower c, c))
  | [], m, _, _ => by simp [lcAux]
  | c :: cs, m, hnd, hdisj => by
    rw [List.map_cons, List.nodup_cons] at hnd
    rw [lcAux, pyDictInsert_not_hasKey (hdisj c (List.mem_cons_self ..))]
    rw [lcAux_of_nodup cs (m ++ [(pyLower c, c)]) hnd.2 ?hd]
    · simp
    case hd =>
      intro c' hc' w hw
      rcases List.mem_append.mp hw with h1 | h1
      · exact hdisj c' (List.mem_cons_of_mem _ hc') w h1
      · have h2 := List.mem_singleton.mp h1
        have h3 : pyLower c' = pyLower c := congrArg Prod.fst h2
        exact hnd.1 (h3 ▸ List.mem_map_of_mem _ hc')

theorem findSome?_guard {α : Type} (p : α → Bool) : ∀ l : List α,
    l.findSome? (fun a => if p a then some a else none) = l.find? p
  | [] => rfl
  | hd :: tl => by
    by_cases hph : p hd = true
    · rw [List.findSome?_cons, if_pos hph, List.find?_cons_of_pos _ hph]
    · rw [List.findSome?_cons, if_neg hph, List.find?_cons_of_neg _ hph]
      exact findSome?_guard p tl

/-- C5 counterexample: on the table columns `["A b", "a B"]` (reachable
from a CSV with headers `"A b "` and `"a B"` after header trimming) and
the candidate list `["ab"]`, neither column matches exactly, and the
code's fallback returns `"a B"`, although the first table column
matching a candidate — which the claim says wins — is `"A b"`: the dict
comprehension keyed on lowercased names lets the later column overwrite
the earlier one. -/
theorem c5_counterexample :
    find_col ["A b", "a B"] ["ab"] = some "a B" ∧
    findColSpecFallback ["A b", "a B"] ["ab"] = some "A b" ∧
    (some "a B" : Option String) ≠ some "A b" ∧
    (lcMap ["A b", "a B"]).lookup (pyLower "ab") = none := by
  exact ⟨by decide, by decide, by decide, by decide⟩

/-- C5 amended: resolution fails exactly when no candidate matches any
column case-insensitively nor with all whitespace removed (the raised
error carries the candidates and the available columns); when some
candidate matches exactly (case-insensitively), the first such candidate
in candidate order determines the result; when no exact match exists and
the lowercased column names are pairwise distinct, the fallback returns
the first table column, in table order, matching any candidate with
whitespace removed (with duplicated lowercased names, the earliest
position still wins but its last bearer is returned, as the
counterexample shows); the headers `"learner - id"`, `"Learner -ID"`
and `"Learner - ID"` all resolve for the `"Learner - ID"` candidate. -/
theorem c5_resolution_amended :
    (∀ cols cands : List String, find_col cols cands = none ↔
      ((∀ cand ∈ cands, ∀ col ∈ cols, pyLower col ≠ pyLower cand) ∧
       (∀ cand ∈ cands, ∀ col ∈ cols, stripWS (pyLower col) ≠ stripWS (pyLower cand)))) ∧
    (∀ (cols cands : List String) (cand0 : String),
      cands.find? (fun cand => cols.any (fun col => pyLower col == pyLower cand)) = some cand0 →
      ∃ c ∈ cols, find_col cols cands = some c ∧ pyLower c = pyLower cand0) ∧
    (∀ cols cands : List String, (cols.map pyLower).Nodup →
      (∀ cand ∈ cands, ∀ col ∈ cols, pyLower col ≠ pyLower cand) →
      find_col cols cands = findColSpecFallback cols cands) ∧
    (∀ h ∈ ["learner - id", "Learner -ID", "Learner - ID"],
      find_col [h] ["Learner - ID"] = some h) := by
  have hfp : ∀ cols : List String, ∀ cand : String,
      (((lcMap cols).lookup (pyLower cand)).isSome = true ↔
        (cols.any (fun col => pyLower col == pyLower cand)) = true) := by
    intro cols cand
    rw [lookup_isSome_iff, List.any_eq_true]
    constructor
    · rintro ⟨w, hw⟩
      rcases lcAux_mem cols [] _ hw with h1 | ⟨h1, h2⟩
      · exact absurd h1 (List.not_mem_nil _)
      · exact ⟨w, h1, beq_iff_eq.mpr h2.symm⟩
    · rintro ⟨col, hcol, hbeq⟩
      have heq : pyLower col = pyLower cand := beq_iff_eq.mp hbeq
      exact (lcAux_hasKey cols [] _).mpr (Or.inr (heq ▸ List.mem_map_of_mem _ hcol))
  refine ⟨?_, ?_, ?_, by decide⟩
  · intro cols cands
    unfold find_col
    dsimp only
    cases ha : cands.findSome? (fun cand => (lcMap cols).lookup (pyLower cand)) with
    | some c =>
      refine iff_of_false (fun hh => Option.noConfusion hh) ?_
      rintro ⟨h1, -⟩
      obtain ⟨cand, hcand, hl⟩ := List.exists_of_findSome?_eq_some ha
      rcases lcAux_mem cols [] _ (lookup_mem hl) with hm | ⟨hm, hm2⟩
      · exact absurd hm (List.not_mem_nil _)
      · exact h1 cand hcand c hm hm2.symm
    | none =>
      rw [fallbackPhase_none_iff]
      constructor
      · intro h2
        exact ⟨(exactPhase_none_iff cols cands).mp ha, h2⟩
      · rintro ⟨-, h2⟩
        exact h2
  · intro cols cands cand0 hfind
    obtain ⟨b, hb, hfb⟩ := find?_findSome?_align cands _ _ (hfp cols) cand0 hfind
    rcases lcAux_mem cols [] _ (lookup_mem hfb) with hm | ⟨hm, hm2⟩
    · exact absurd hm (List.not_mem_nil _)
    · refine ⟨b, hm, ?_, hm2.symm⟩
      unfold find_col
      dsimp only
      rw [hb]
  · intro cols cands hnd hnoexact
    unfold find_col
    dsimp only
    rw [(exactPhase_none_iff cols cands).mpr hnoexact]
    have hmap : lcMap cols = cols.map (fun c => (pyLower c, c)) :=
      lcAux_of_nodup cols [] hnd (fun _ _ _ h => List.not_mem_nil _ h)
    rw [hmap, List.findSome?_map]
    exact findSome?_guard _ cols

theorem c5_witness :
    find_col ["Learner -ID"] ["Learner - ID"]
      = findColSpecFallback ["Learner -ID"] ["Learner - ID"] :=
  c5_resolution_amended.2.2.1 ["Learner -ID"] ["Learner - ID"] (by decide) (by decide)

/-! ## Provenance of the projected cells -/

theorem projectRow_setCell_date (ni ti li ai dui di : Nat) (r1 : List Value)
    (h1 : di ≠ ni) (h2 : di ≠ ti) (h3 : di ≠ li) (h4 : di ≠ ai) (h5 : di ≠ dui)
    (hlen : di < r1.length) :
    projectRow ni ti li ai dui di (setCell r1 di (.str (dateStr (getCell r1 di)))) =
      [getCell r1 ni, getCell r1 ti, getCell r1 li, getCell r1 ai,
       .num (toNumeric0 (getCell r1 dui)), .str (dateStr (getCell r1 di))] := by
  unfold projectRow
  rw [getCell_set_ne h1, getCell_set_ne h2, getCell_set_ne h3, getCell_set_ne h4,
    getCell_set_ne h5, getCell_set_self hlen]

/-- C10: in every output report's non-TOTAL rows, the Completion Date
cell holds the normalised date-only string computed from the loaded
cell (with the `"NaT"` sentinel for unparseable values), the Duration
cell holds the numeric coercion of the loaded cell (non-numeric
becoming 0), and the Name, Title, Learner ID and Activity ID cells hold
the loaded cell values unchanged — provided the resolved columns are
pairwise distinct positions and the rows are wide enough to carry the
date column. -/
theorem c10_projected_cell_provenance (content : Table) (p : Prepared)
    (hp : prepare content = Except.ok p)
    (k : Value × Value) (f : String) (rep : Table)
    (he : emitGroup p k = some (f, rep))
    (hd1 : p.di ≠ p.ni) (hd2 : p.di ≠ p.ti) (hd3 : p.di ≠ p.li) (hd4 : p.di ≠ p.ai)
    (hd5 : p.di ≠ p.dui)
    (htr : ∀ j, p.trIdx = some j →
      j ≠ p.ni ∧ j ≠ p.ti ∧ j ≠ p.li ∧ j ≠ p.ai ∧ j ≠ p.dui ∧ j ≠ p.di)
    (hlen : ∀ r ∈ content.rows, p.di < r.length) :
    ∀ b ∈ rep.rows.dropLast, ∃ r0 ∈ content.rows,
      b = [getCell r0 p.ni, getCell r0 p.ti, getCell r0 p.li, getCell r0 p.ai,
           Value.num (toNumeric0 (getCell r0 p.dui)), Value.str (dateStr (getCell r0 p.di))] := by
  intro b hb
  obtain ⟨-, -, hrep⟩ := emitGroup_eq_some he
  subst hrep
  unfold makeReport at hb
  dsimp only at hb
  rw [List.dropLast_concat] at hb
  obtain ⟨g, hg, hbg⟩ := List.mem_map.mp hb
  have hgtab : g ∈ p.tab.rows := by
    unfold groupRows at hg
    exact (List.mem_filter.mp hg).1
  -- decompose `prepare`
  unfold prepare at hp
  revert hp
  cases hrc : resolveRequired (normalize_columns content).cols with
  | error e =>
    intro hp
    exact absurd hp (fun hh => Except.noConfusion hh)
  | ok rc =>
    intro hp
    have hrec := (Except.ok.inj hp).symm
    have htab : p.tab =
        normalizeDates (filterStage (normalize_columns content)) p.di := by
      rw [hrec]
    have htridx : p.trIdx = (resolveTranscript (normalize_columns content).cols).map
        (fun c => (normalize_columns content).cols.indexOf c) := by
      rw [hrec]
    rw [htab] at hgtab
    have hrows : (normalizeDates (filterStage (normalize_columns content)) p.di).rows =
        ((filterStage (normalize_columns content)).rows).map
          (fun r => setCell r p.di (.str (dateStr (getCell r p.di)))) := rfl
    rw [hrows] at hgtab
    obtain ⟨r1, hr1, hgr1⟩ := List.mem_map.mp hgtab
    -- the filter stage either passes rows through or mutates the transcript cell
    unfold filterStage at hr1
    cases htc : resolveTranscript (normalize_columns content).cols with
    | none =>
      rw [htc] at hr1
      have hr1mem : r1 ∈ content.rows := hr1
      refine ⟨r1, hr1mem, ?_⟩
      rw [← hbg, ← hgr1]
      exact projectRow_setCell_date p.ni p.ti p.li p.ai p.dui p.di r1
        hd1 hd2 hd3 hd4 hd5 (hlen r1 hr1mem)
    | some c =>
      rw [htc] at hr1
      unfold filterTranscript at hr1
      dsimp only at hr1
      have hr1m := (List.mem_filter.mp hr1).1
      obtain ⟨r0, hr0, hr0eq⟩ := List.mem_map.mp hr1m
      have hr0mem : r0 ∈ content.rows := hr0
      have hj : p.trIdx = some ((normalize_columns content).cols.indexOf c) := by
        rw [htridx, htc]
        rfl
      obtain ⟨hj1, hj2, hj3, hj4, hj5, hj6⟩ := htr _ hj
      have hlen1 : p.di < r1.length := by
        rw [← hr0eq]
        unfold setCell
        rw [List.length_set]
        exact hlen r0 hr0mem
      refine ⟨r0, hr0mem, ?_⟩
      rw [← hbg, ← hgr1]
      rw [projectRow_setCell_date p.ni p.ti p.li p.ai p.dui p.di r1
        hd1 hd2 hd3 hd4 hd5 hlen1]
      rw [← hr0eq]
      rw [getCell_set_ne hj1, getCell_set_ne hj2, getCell_set_ne hj3,
        getCell_set_ne hj4, getCell_set_ne hj5, getCell_set_ne hj6]

theorem c10_witness :
    ∃ r0 ∈ t51.rows,
      ((((emitGroup (prepOf t51) (Value.str "L1", Value.str "2024-01-05")).getD
          ("", ⟨[], []⟩)).2).rows.dropLast).getD 0 []
        = [getCell r0 0, getCell r0 4, getCell r0 1, getCell r0 5,
           Value.num (toNumeric0 (getCell r0 3)), Value.str (dateStr (getCell r0 2))] :=
  c10_projected_cell_provenance t51 (prepOf t51) rfl
    (Value.str "L1", Value.str "2024-01-05") _ _ rfl
    (by decide) (by decide) (by decide) (by decide) (by decide)
    (fun j h => Option.noConfusion h) (by decide)
    (((((emitGroup (prepOf t51) (Value.str "L1", Value.str "2024-01-05")).getD
        ("", ⟨[], []⟩)).2).rows.dropLast).getD 0 [])
    (by decide)

/-- End-to-end sanity run of the embedded pipeline on the boundary
inputs of the threshold scenario: a single 51-row group yields one file
with the expected name, a single 50-row group yields none, and an empty
input yields zero files with the output directory created. -/
theorem pipeline_sample_runs :
    (process_student_data "d.csv" t51 "out" ⟨[], []⟩).2 = Except.ok 1 ∧
    (process_student_data "d.csv" t51 "out" ⟨[], []⟩).1.files.map Prod.fst =
      ["out/learner_L1_2024-01-05.xlsx"] ∧
    (process_student_data "d.csv" t50 "out" ⟨[], []⟩).2 = Except.ok 0 ∧
    (process_student_data "d.csv" tEmpty "out" ⟨[], []⟩).1 = ⟨["out"], []⟩ :=
  ⟨rfl, rfl, rfl, rfl⟩

end StudentApp
